import Mathlib

/-!
Verification of the break-even estimator in
`scripts/generate_llm_comparison_chart.py`.

The script samples a request-volume domain
(`requests = np.linspace(0, 100000, 1000)`), evaluates two cost curves
(`cloud_cost = requests * 0.002` and
`self_hosted_cost = initial_investment + requests * 0.0002` with
`initial_investment = 10000`), and locates the break-even point with
`break_even_idx = np.argmin(np.abs(cloud_cost - self_hosted_cost))`,
`break_even_requests = requests[break_even_idx]`,
`break_even_cost = cloud_cost[break_even_idx]`.

We embed the numeric computation over `List ℚ` (exact rational arithmetic
standing in for the script's real-valued computation).  `np.argmin` is
modelled by `argminQ`, which returns the index of the first occurrence of
the minimum, exactly numpy's deterministic tie-breaking; `np.argmin` on an
empty array raises `ValueError`, modelled by the `Option`-valued
`argminQ?` / `breakEven?`.
-/

namespace LLMChart

/-- Minimum value of a list of rationals (`0` on the empty list, which is
never used under the non-empty precondition). -/
def listMin : List ℚ → ℚ
  | [] => 0
  | [x] => x
  | x :: y :: ys => min x (listMin (y :: ys))

/-- Index of the first occurrence of the minimum of a list, modelling
`np.argmin`: a left-to-right scan in which an element replaces the current
minimum only when strictly smaller. -/
def argminQ : List ℚ → ℕ
  | [] => 0
  | [_] => 0
  | x :: y :: ys => if x ≤ listMin (y :: ys) then 0 else argminQ (y :: ys) + 1

/-- Fallible version of `np.argmin`: `ValueError` on an empty array is
modelled as `none`. -/
def argminQ? (l : List ℚ) : Option ℕ :=
  if l.isEmpty then none else some (argminQ l)

/-- Linear cloud cost formula: `rateA * v` (`cloud_cost = requests * 0.002`
in the script, with `rateA` the per-request rate). -/
def costA (rateA v : ℚ) : ℚ := rateA * v

/-- Affine self-hosted cost formula: `offsetB + rateB * v`
(`self_hosted_cost = initial_investment + requests * 0.0002`). -/
def costB (rateB offsetB v : ℚ) : ℚ := offsetB + rateB * v

/-- The sampled cloud-cost curve: `cloud_cost = requests * rateA`. -/
def cloud_cost (requests : List ℚ) (rateA : ℚ) : List ℚ :=
  requests.map (fun v => costA rateA v)

/-- The sampled self-hosted-cost curve:
`self_hosted_cost = offsetB + requests * rateB`. -/
def self_hosted_cost (requests : List ℚ) (rateB offsetB : ℚ) : List ℚ :=
  requests.map (fun v => costB rateB offsetB v)

/-- The element-wise absolute difference
`np.abs(cloud_cost - self_hosted_cost)`. -/
def absDiff (requests : List ℚ) (rateA rateB offsetB : ℚ) : List ℚ :=
  List.zipWith (fun a b => |a - b|) (cloud_cost requests rateA)
    (self_hosted_cost requests rateB offsetB)

/-- `break_even_idx = np.argmin(np.abs(cloud_cost - self_hosted_cost))`. -/
def break_even_idx (requests : List ℚ) (rateA rateB offsetB : ℚ) : ℕ :=
  argminQ (absDiff requests rateA rateB offsetB)

/-- `break_even_requests = requests[break_even_idx]`. -/
def break_even_requests (requests : List ℚ) (rateA rateB offsetB : ℚ) : ℚ :=
  requests.getD (break_even_idx requests rateA rateB offsetB) 0

/-- `break_even_cost = cloud_cost[break_even_idx]`. -/
def break_even_cost (requests : List ℚ) (rateA rateB offsetB : ℚ) : ℚ :=
  (cloud_cost requests rateA).getD (break_even_idx requests rateA rateB offsetB) 0

/-- The whole break-even computation as one fallible operation returning
`(break_even_idx, break_even_requests, break_even_cost)`, or `none` when
the domain is empty (where `np.argmin` raises). -/
def breakEven? (requests : List ℚ) (rateA rateB offsetB : ℚ) :
    Option (ℕ × ℚ × ℚ) :=
  match argminQ? (absDiff requests rateA rateB offsetB) with
  | none => none
  | some i => some (i, requests.getD i 0, (cloud_cost requests rateA).getD i 0)

/-- `np.linspace a b n`: `n` evenly spaced samples from `a` to `b`
inclusive, sample `i` being `a + (b - a) * i / (n - 1)`. -/
def linspace (a b : ℚ) (n : ℕ) : List ℚ :=
  (List.range n).map (fun i : ℕ => a + (b - a) * (i : ℚ) / ((n : ℚ) - 1))

/-- The script's sampled domain: `requests = np.linspace(0, 100000, 1000)`. -/
def requests : List ℚ := linspace 0 100000 1000

/-- The script's cloud per-request rate (`0.002`). -/
def script_rateA : ℚ := 0.002

/-- The script's self-hosted marginal rate (`0.0002`). -/
def script_rateB : ℚ := 0.0002

/-- The script's `initial_investment = 10000`. -/
def initial_investment : ℚ := 10000

/-! Basic facts about `listMin` and `argminQ`. -/

theorem listMin_le : ∀ (l : List ℚ) (i : ℕ), i < l.length → listMin l ≤ l.getD i 0
  | [], _, h => absurd h (by simp)
  | [x], 0, _ => by simp [listMin]
  | [x], i + 1, h => absurd h (by simp)
  | x :: y :: ys, 0, _ => by simp [listMin]
  | x :: y :: ys, i + 1, h => by
      have ih := listMin_le (y :: ys) i (by simpa using h)
      calc listMin (x :: y :: ys) ≤ listMin (y :: ys) := by simp [listMin]
        _ ≤ (y :: ys).getD i 0 := ih
        _ = (x :: y :: ys).getD (i + 1) 0 := rfl

theorem le_listMin : ∀ {l : List ℚ}, l ≠ [] → ∀ {x : ℚ}, (∀ z ∈ l, x ≤ z) →
    x ≤ listMin l
  | [], hne, _, _ => absurd rfl hne
  | [y], _, x, h => by simpa [listMin] using h y (by simp)
  | y :: z :: zs, _, x, h => by
      have ih := le_listMin (l := z :: zs) (by simp)
        (fun w hw => h w (List.mem_cons_of_mem y hw))
      have hy := h y (by simp)
      simp only [listMin, le_min_iff]
      exact ⟨hy, ih⟩

theorem listMin_mem : ∀ {l : List ℚ}, l ≠ [] → listMin l ∈ l
  | [], hne => absurd rfl hne
  | [x], _ => by simp [listMin]
  | x :: y :: ys, _ => by
      have ih := listMin_mem (l := y :: ys) (by simp)
      rcases le_total x (listMin (y :: ys)) with hc | hc
      · simp [listMin, min_eq_left hc]
      · simp only [listMin, min_eq_right hc]
        exact List.mem_cons_of_mem x ih

theorem argminQ_lt_length : ∀ {l : List ℚ}, l ≠ [] → argminQ l < l.length
  | [], hne => absurd rfl hne
  | [x], _ => by simp [argminQ]
  | x :: y :: ys, _ => by
      by_cases hc : x ≤ listMin (y :: ys)
      · simp [argminQ, hc]
      · have ih := argminQ_lt_length (l := y :: ys) (by simp)
        simp only [argminQ, if_neg hc, List.length_cons]
        simp only [List.length_cons] at ih
        omega

theorem getD_argminQ : ∀ {l : List ℚ}, l ≠ [] → l.getD (argminQ l) 0 = listMin l
  | [], hne => absurd rfl hne
  | [x], _ => by simp [argminQ, listMin]
  | x :: y :: ys, _ => by
      by_cases hc : x ≤ listMin (y :: ys)
      · simp [argminQ, listMin, if_pos hc, min_eq_left hc]
      · have ih := getD_argminQ (l := y :: ys) (by simp)
        have hlt : listMin (y :: ys) < x := not_le.1 hc
        calc (x :: y :: ys).getD (argminQ (x :: y :: ys)) 0
            = (x :: y :: ys).getD (argminQ (y :: ys) + 1) 0 := by
              simp [argminQ, if_neg hc]
          _ = (y :: ys).getD (argminQ (y :: ys)) 0 := rfl
          _ = listMin (y :: ys) := ih
          _ = listMin (x :: y :: ys) := by simp [listMin, min_eq_right hlt.le]

theorem argminQ_first : ∀ (l : List ℚ) (j : ℕ), j < argminQ l →
    listMin l < l.getD j 0
  | [], j, h => by simp [argminQ] at h
  | [x], j, h => by simp [argminQ] at h
  | x :: y :: ys, j, h => by
      by_cases hc : x ≤ listMin (y :: ys)
      · simp [argminQ, if_pos hc] at h
      · have hlt : listMin (y :: ys) < x := not_le.1 hc
        have hmin : listMin (x :: y :: ys) = listMin (y :: ys) := by
          simp [listMin, min_eq_right hlt.le]
        cases j with
        | zero => simpa [hmin] using hlt
        | succ j' =>
            have h' : j' < argminQ (y :: ys) := by
              simp only [argminQ, if_neg hc] at h; omega
            have ih := argminQ_first (y :: ys) j' h'
            simpa [hmin] using ih

theorem argminQ_of_pairwise_le : ∀ {l : List ℚ}, l.Pairwise (· ≤ ·) →
    argminQ l = 0
  | [], _ => rfl
  | [_], _ => rfl
  | x :: y :: ys, h => by
      have hx : ∀ z ∈ y :: ys, x ≤ z := (List.pairwise_cons.1 h).1
      have hle : x ≤ listMin (y :: ys) := le_listMin (by simp) hx
      simp [argminQ, if_pos hle]

theorem argminQ_of_pairwise_gt : ∀ {l : List ℚ}, l ≠ [] →
    l.Pairwise (fun a b => b < a) → argminQ l = l.length - 1
  | [], hne, _ => absurd rfl hne
  | [_], _, _ => rfl
  | x :: y :: ys, _, h => by
      have hmem := listMin_mem (l := y :: ys) (by simp)
      have hx : listMin (y :: ys) < x := (List.pairwise_cons.1 h).1 _ hmem
      have ih := argminQ_of_pairwise_gt (l := y :: ys) (by simp)
        (List.pairwise_cons.1 h).2
      simp only [argminQ, if_neg (not_le.2 hx), ih, List.length_cons]
      omega

/-! Transport between `getD`, `get` and `Pairwise`. -/

theorem pairwise_getD {R : ℚ → ℚ → Prop} {l : List ℚ} (h : l.Pairwise R)
    {i j : ℕ} (hij : i < j) (hj : j < l.length) : R (l.getD i 0) (l.getD j 0) := by
  have hi : i < l.length := lt_trans hij hj
  have hg := List.pairwise_iff_get.1 h ⟨i, hi⟩ ⟨j, hj⟩ hij
  rw [List.getD_eq_getElem _ _ hi, List.getD_eq_getElem _ _ hj]
  simpa [List.get_eq_getElem] using hg

theorem pairwise_of_getD {R : ℚ → ℚ → Prop} {l : List ℚ}
    (h : ∀ i j : ℕ, i < j → j < l.length → R (l.getD i 0) (l.getD j 0)) :
    l.Pairwise R := by
  refine List.pairwise_iff_get.2 (fun i j hij => ?_)
  have hg := h i j hij j.isLt
  simpa [List.getD_eq_getElem _ _ i.isLt, List.getD_eq_getElem _ _ j.isLt,
    List.get_eq_getElem] using hg

theorem getD_map_of_lt (f : ℚ → ℚ) :
    ∀ (l : List ℚ) (i : ℕ), i < l.length → (l.map f).getD i 0 = f (l.getD i 0)
  | [], _, h => absurd h (by simp)
  | _ :: _, 0, _ => rfl
  | _ :: xs, i + 1, h => getD_map_of_lt f xs i (by simpa using h)

/-! The absolute-difference curve as a single map over the domain. -/

theorem absDiff_eq_map (requests : List ℚ) (rateA rateB offsetB : ℚ) :
    absDiff requests rateA rateB offsetB =
      requests.map (fun v => |costA rateA v - costB rateB offsetB v|) := by
  induction requests with
  | nil => rfl
  | cons v vs ih =>
      simp only [absDiff, cloud_cost, self_hosted_cost, List.map_cons,
        List.zipWith_cons_cons] at ih ⊢
      exact congrArg _ ih

theorem length_absDiff (requests : List ℚ) (rateA rateB offsetB : ℚ) :
    (absDiff requests rateA rateB offsetB).length = requests.length := by
  rw [absDiff_eq_map]; simp

theorem absDiff_getD (requests : List ℚ) (rateA rateB offsetB : ℚ) (i : ℕ)
    (h : i < requests.length) :
    (absDiff requests rateA rateB offsetB).getD i 0 =
      |costA rateA (requests.getD i 0) - costB rateB offsetB (requests.getD i 0)| := by
  rw [absDiff_eq_map]
  exact getD_map_of_lt _ requests i h

/-! Facts about `linspace`. -/

theorem linspace_length (a b : ℚ) (n : ℕ) : (linspace a b n).length = n := by
  simp [linspace]

theorem linspace_getD (a b : ℚ) {n i : ℕ} (h : i < n) :
    (linspace a b n).getD i 0 = a + (b - a) * i / ((n : ℚ) - 1) := by
  have hlen : i < (linspace a b n).length := by simpa [linspace_length] using h
  rw [List.getD_eq_getElem _ _ hlen]
  simp [linspace]

theorem linspace_pairwise_lt (a b : ℚ) (hab : a < b) (n : ℕ) :
    (linspace a b n).Pairwise (· < ·) := by
  apply pairwise_of_getD
  intro i j hij hj
  have hjn : j < n := by simpa [linspace_length] using hj
  have hin : i < n := lt_trans hij hjn
  rw [linspace_getD a b hin, linspace_getD a b hjn]
  have hn2 : 2 ≤ n := by omega
  have hden : (0:ℚ) < (n:ℚ) - 1 := by
    have : (2:ℚ) ≤ (n:ℚ) := by exact_mod_cast hn2
    linarith
  have hba : (0:ℚ) < b - a := by linarith
  have hijq : (i:ℚ) < (j:ℚ) := by exact_mod_cast hij
  have h1 : (b - a) * (i:ℚ) < (b - a) * (j:ℚ) := (mul_lt_mul_left hba).2 hijq
  have h2 : (b - a) * (i:ℚ) / ((n:ℚ) - 1) < (b - a) * (j:ℚ) / ((n:ℚ) - 1) :=
    (div_lt_div_right hden).2 h1
  linarith

theorem linspace_getD_le (a b : ℚ) (hab : a ≤ b) {n i : ℕ} (h : i < n) :
    (linspace a b n).getD i 0 ≤ b := by
  rw [linspace_getD a b h]
  rcases Nat.lt_or_ge n 2 with h2 | h2
  · have hn1 : n = 1 := by omega
    have hi0 : i = 0 := by omega
    subst hn1; subst hi0
    norm_num
    linarith
  · have hden : (0:ℚ) < (n:ℚ) - 1 := by
      have : (2:ℚ) ≤ (n:ℚ) := by exact_mod_cast h2
      linarith
    have hi1 : (i:ℚ) ≤ (n:ℚ) - 1 := by
      have : (i:ℚ) + 1 ≤ (n:ℚ) := by exact_mod_cast h
      linarith
    have hba : (0:ℚ) ≤ b - a := by linarith
    have key : (b - a) * (i:ℚ) / ((n:ℚ) - 1) ≤ b - a := by
      rw [div_le_iff hden]
      calc (b - a) * (i:ℚ) ≤ (b - a) * ((n:ℚ) - 1) :=
            mul_le_mul_of_nonneg_left hi1 hba
        _ = (b - a) * ((n:ℚ) - 1) := rfl
    linarith

theorem le_linspace_getD (a b : ℚ) (hab : a ≤ b) {n i : ℕ} (h : i < n) :
    a ≤ (linspace a b n).getD i 0 := by
  rw [linspace_getD a b h]
  have hn1 : 1 ≤ n := by omega
  have hden : (0:ℚ) ≤ (n:ℚ) - 1 := by
    have : (1:ℚ) ≤ (n:ℚ) := by exact_mod_cast hn1
    linarith
  have hnum : (0:ℚ) ≤ (b - a) * (i:ℚ) := by
    have : (0:ℚ) ≤ (i:ℚ) := by positivity
    nlinarith
  have := div_nonneg hnum hden
  linarith

theorem mem_linspace {a b : ℚ} {n : ℕ} {v : ℚ} (h : v ∈ linspace a b n) :
    ∃ i : ℕ, i < n ∧ v = a + (b - a) * i / ((n : ℚ) - 1) := by
  simp only [linspace, List.mem_map, List.mem_range] at h
  obtain ⟨i, hi, hv⟩ := h
  exact ⟨i, hi, hv.symm⟩

theorem absDiff_ne_nil {domain : List ℚ} (rateA rateB offsetB : ℚ)
    (hne : domain ≠ []) : absDiff domain rateA rateB offsetB ≠ [] := by
  intro h
  have := length_absDiff domain rateA rateB offsetB
  rw [h] at this
  exact hne (List.eq_nil_of_length_eq_zero this.symm)

theorem break_even_idx_lt {domain : List ℚ} (rateA rateB offsetB : ℚ)
    (hne : domain ≠ []) :
    break_even_idx domain rateA rateB offsetB < domain.length := by
  have h := argminQ_lt_length (absDiff_ne_nil rateA rateB offsetB hne)
  rwa [length_absDiff] at h

/-- C1: for every non-empty, strictly increasing, non-negative domain and
configuration `rateA, rateB, offsetB ≥ 0`, the break-even estimator picks the
first (lowest-volume) sample minimizing `|costA(v) - costB(v)|` (ties broken
by first occurrence), and reports the domain value at that sample together
with the cost values there: the reported cost is `costA` at that sample, and
the sampled self-hosted curve there equals `costB` at that sample. -/
theorem C1_first_min_sample (domain : List ℚ) (rateA rateB offsetB : ℚ)
    (hne : domain ≠ []) (hmono : domain.Pairwise (· < ·))
    (hpos : ∀ v ∈ domain, 0 ≤ v)
    (hra : 0 ≤ rateA) (hrb : 0 ≤ rateB) (hob : 0 ≤ offsetB) :
    (∀ j, j < domain.length →
        (absDiff domain rateA rateB offsetB).getD
          (break_even_idx domain rateA rateB offsetB) 0 ≤
        (absDiff domain rateA rateB offsetB).getD j 0) ∧
    (∀ j, j < break_even_idx domain rateA rateB offsetB →
        (absDiff domain rateA rateB offsetB).getD
          (break_even_idx domain rateA rateB offsetB) 0 <
        (absDiff domain rateA rateB offsetB).getD j 0) ∧
    break_even_requests domain rateA rateB offsetB =
      domain.getD (break_even_idx domain rateA rateB offsetB) 0 ∧
    break_even_cost domain rateA rateB offsetB =
      costA rateA (break_even_requests domain rateA rateB offsetB) ∧
    (self_hosted_cost domain rateB offsetB).getD
        (break_even_idx domain rateA rateB offsetB) 0 =
      costB rateB offsetB (break_even_requests domain rateA rateB offsetB) := by
  have hLne := absDiff_ne_nil rateA rateB offsetB hne
  have hidx := break_even_idx_lt rateA rateB offsetB hne
  have hmin := getD_argminQ hLne
  refine ⟨?_, ?_, rfl, ?_, ?_⟩
  · intro j hj
    have hj' : j < (absDiff domain rateA rateB offsetB).length := by
      rwa [length_absDiff]
    rw [show break_even_idx domain rateA rateB offsetB =
        argminQ (absDiff domain rateA rateB offsetB) from rfl, hmin]
    exact listMin_le _ j hj'
  · intro j hj
    rw [show break_even_idx domain rateA rateB offsetB =
        argminQ (absDiff domain rateA rateB offsetB) from rfl, hmin]
    exact argminQ_first _ j hj
  · show (cloud_cost domain rateA).getD _ 0 = _
    unfold cloud_cost
    rw [getD_map_of_lt _ domain _ hidx]
    rfl
  · unfold self_hosted_cost
    rw [getD_map_of_lt _ domain _ hidx]
    rfl

/-- C1 witness at domain `[0, 1]`, `rateA = 1`, `rateB = 0`, `offsetB = 1`. -/
theorem C1_first_min_sample_witness :
    break_even_requests [0, 1] 1 0 1 =
      ([0, 1] : List ℚ).getD (break_even_idx [0, 1] 1 0 1) 0 ∧
    break_even_cost [0, 1] 1 0 1 = costA 1 (break_even_requests [0, 1] 1 0 1) :=
  ⟨(C1_first_min_sample [0, 1] 1 0 1 (by simp)
      (by norm_num [List.pairwise_cons]) (by norm_num)
      (by norm_num) (by norm_num) (by norm_num)).2.2.1,
   (C1_first_min_sample [0, 1] 1 0 1 (by simp)
      (by norm_num [List.pairwise_cons]) (by norm_num)
      (by norm_num) (by norm_num) (by norm_num)).2.2.2.1⟩

/-- C4: for every non-empty domain and configuration, the break-even index
lies within the domain's sample bounds, and the reported volume and cost are
the entries of the domain and cloud-cost sequences at that index. -/
theorem C4_index_in_bounds (domain : List ℚ) (rateA rateB offsetB : ℚ)
    (hne : domain ≠ []) :
    break_even_idx domain rateA rateB offsetB < domain.length ∧
    break_even_requests domain rateA rateB offsetB =
      domain.getD (break_even_idx domain rateA rateB offsetB) 0 ∧
    break_even_cost domain rateA rateB offsetB =
      (cloud_cost domain rateA).getD (break_even_idx domain rateA rateB offsetB) 0 :=
  ⟨break_even_idx_lt rateA rateB offsetB hne, rfl, rfl⟩

/-- C4 witness at domain `[0, 1]`, `rateA = 1`, `rateB = 0`, `offsetB = 1`. -/
theorem C4_index_in_bounds_witness :
    break_even_idx [0, 1] 1 0 1 < ([0, 1] : List ℚ).length :=
  (C4_index_in_bounds [0, 1] 1 0 1 (by simp)).1

/-- C7: with `rateA = rateB` the absolute difference is the constant
`offsetB` at every sample and the estimator returns the first (lowest-volume)
sample. -/
theorem C7_equal_rates (domain : List ℚ) (rate offsetB : ℚ)
    (hne : domain ≠ []) (hob : 0 ≤ offsetB) :
    (∀ j, j < domain.length →
      (absDiff domain rate rate offsetB).getD j 0 = offsetB) ∧
    break_even_idx domain rate rate offsetB = 0 ∧
    break_even_requests domain rate rate offsetB = domain.getD 0 0 := by
  have hconst : ∀ j, j < domain.length →
      (absDiff domain rate rate offsetB).getD j 0 = offsetB := by
    intro j hj
    rw [absDiff_getD domain rate rate offsetB j hj]
    unfold costA costB
    have : rate * domain.getD j 0 - (offsetB + rate * domain.getD j 0) = -offsetB := by
      ring
    rw [this, abs_neg, abs_of_nonneg hob]
  have hidx : break_even_idx domain rate rate offsetB = 0 := by
    apply argminQ_of_pairwise_le
    apply pairwise_of_getD
    intro i j hij hj
    have hj' : j < domain.length := by
      rwa [length_absDiff] at hj
    rw [hconst i (lt_trans hij hj'), hconst j hj']
  exact ⟨hconst, hidx, by rw [break_even_requests, hidx]⟩

/-- C7 witness at domain `[0, 1]`, `rate = 1`, `offsetB = 5`. -/
theorem C7_equal_rates_witness :
    break_even_idx [0, 1] 1 1 5 = 0 ∧
    break_even_requests [0, 1] 1 1 5 = ([0, 1] : List ℚ).getD 0 0 :=
  ⟨(C7_equal_rates [0, 1] 1 5 (by simp) (by norm_num)).2.1,
   (C7_equal_rates [0, 1] 1 5 (by simp) (by norm_num)).2.2⟩

/-- C9: under the non-emptiness precondition the break-even computation is
total — it returns a result for every configuration — while on an empty
domain `np.argmin` raises, modelled as `none` (no result). -/
theorem C9_totality (domain : List ℚ) (rateA rateB offsetB : ℚ) :
    (domain ≠ [] →
      breakEven? domain rateA rateB offsetB =
        some (break_even_idx domain rateA rateB offsetB,
              break_even_requests domain rateA rateB offsetB,
              break_even_cost domain rateA rateB offsetB)) ∧
    (domain = [] → breakEven? domain rateA rateB offsetB = none) := by
  constructor
  · intro hne
    have hLne := absDiff_ne_nil rateA rateB offsetB hne
    unfold breakEven? argminQ?
    rw [if_neg (by simpa [List.isEmpty_iff] using hLne)]
    rfl
  · intro h
    subst h
    rfl

/-- C9 witness at domain `[0, 1]`, `rateA = 1`, `rateB = 0`, `offsetB = 1`. -/
theorem C9_totality_witness :
    breakEven? [0, 1] 1 0 1 =
      some (break_even_idx [0, 1] 1 0 1, break_even_requests [0, 1] 1 0 1,
            break_even_cost [0, 1] 1 0 1) :=
  (C9_totality [0, 1] 1 0 1).1 (by simp)

/-- C10: the break-even computation is deterministic — identical domain
samples and configuration yield the identical index, volume and cost, with
no hidden state. -/
theorem C10_deterministic (d1 d2 : List ℚ) (rA1 rA2 rB1 rB2 oB1 oB2 : ℚ)
    (hd : d1 = d2) (hA : rA1 = rA2) (hB : rB1 = rB2) (hO : oB1 = oB2) :
    breakEven? d1 rA1 rB1 oB1 = breakEven? d2 rA2 rB2 oB2 := by
  subst hd hA hB hO
  rfl

/-- C10 witness at the script's own configuration. -/
theorem C10_deterministic_witness :
    breakEven? requests script_rateA script_rateB initial_investment =
      breakEven? requests script_rateA script_rateB initial_investment :=
  C10_deterministic requests requests script_rateA script_rateA script_rateB
    script_rateB initial_investment initial_investment rfl rfl rfl rfl

theorem getD_mem {l : List ℚ} {i : ℕ} (h : i < l.length) : l.getD i 0 ∈ l := by
  rw [List.getD_eq_getElem _ _ h]
  exact List.getElem_mem h

/-- C2: when the two curves have the same strict sign of `costA - costB` at
every sample (no crossing within the sampled domain), the estimator returns a
domain endpoint — the one with the smallest absolute cost gap — and the two
costs are not equal at the returned sample. -/
theorem C2_no_crossing_endpoint (domain : List ℚ) (rateA rateB offsetB : ℚ)
    (hne : domain ≠ []) (hmono : domain.Pairwise (· < ·))
    (hsign : (∀ v ∈ domain, costA rateA v < costB rateB offsetB v) ∨
             (∀ v ∈ domain, costB rateB offsetB v < costA rateA v)) :
    (break_even_idx domain rateA rateB offsetB = 0 ∨
     break_even_idx domain rateA rateB offsetB = domain.length - 1) ∧
    (absDiff domain rateA rateB offsetB).getD
        (break_even_idx domain rateA rateB offsetB) 0 ≤
      (absDiff domain rateA rateB offsetB).getD 0 0 ∧
    (absDiff domain rateA rateB offsetB).getD
        (break_even_idx domain rateA rateB offsetB) 0 ≤
      (absDiff domain rateA rateB offsetB).getD (domain.length - 1) 0 ∧
    costA rateA (break_even_requests domain rateA rateB offsetB) ≠
      costB rateB offsetB (break_even_requests domain rateA rateB offsetB) := by
  have hlen := length_absDiff domain rateA rateB offsetB
  have hLne := absDiff_ne_nil rateA rateB offsetB hne
  have hidx := break_even_idx_lt rateA rateB offsetB hne
  have hgap := absDiff_getD domain rateA rateB offsetB
  have hpos : 0 < domain.length := List.length_pos.2 hne
  have hminle : ∀ j, j < domain.length →
      (absDiff domain rateA rateB offsetB).getD
        (break_even_idx domain rateA rateB offsetB) 0 ≤
      (absDiff domain rateA rateB offsetB).getD j 0 := by
    intro j hj
    rw [show break_even_idx domain rateA rateB offsetB =
        argminQ (absDiff domain rateA rateB offsetB) from rfl, getD_argminQ hLne]
    exact listMin_le _ j (by rwa [hlen])
  have hend : break_even_idx domain rateA rateB offsetB = 0 ∨
      break_even_idx domain rateA rateB offsetB = domain.length - 1 := by
    rcases hsign with hAB | hBA
    · rcases le_or_lt rateA rateB with hc | hc
      · left
        apply argminQ_of_pairwise_le
        apply pairwise_of_getD
        intro i j hij hj
        rw [hlen] at hj
        have hi := lt_trans hij hj
        rw [hgap i hi, hgap j hj]
        have hvij : domain.getD i 0 < domain.getD j 0 := pairwise_getD hmono hij hj
        have h1 := hAB _ (getD_mem hi)
        have h2 := hAB _ (getD_mem hj)
        rw [abs_of_neg (by linarith), abs_of_neg (by linarith)]
        unfold costA costB at *
        nlinarith [mul_nonneg (sub_nonneg.2 hc) (sub_nonneg.2 hvij.le)]
      · right
        have := argminQ_of_pairwise_gt hLne ?_
        · rw [break_even_idx, this, hlen]
        apply pairwise_of_getD
        intro i j hij hj
        rw [hlen] at hj
        have hi := lt_trans hij hj
        rw [hgap i hi, hgap j hj]
        have hvij : domain.getD i 0 < domain.getD j 0 := pairwise_getD hmono hij hj
        have h1 := hAB _ (getD_mem hi)
        have h2 := hAB _ (getD_mem hj)
        rw [abs_of_neg (by linarith), abs_of_neg (by linarith)]
        unfold costA costB at *
        nlinarith [mul_pos (sub_pos.2 hc) (sub_pos.2 hvij)]
    · rcases lt_or_le rateA rateB with hc | hc
      · right
        have := argminQ_of_pairwise_gt hLne ?_
        · rw [break_even_idx, this, hlen]
        apply pairwise_of_getD
        intro i j hij hj
        rw [hlen] at hj
        have hi := lt_trans hij hj
        rw [hgap i hi, hgap j hj]
        have hvij : domain.getD i 0 < domain.getD j 0 := pairwise_getD hmono hij hj
        have h1 := hBA _ (getD_mem hi)
        have h2 := hBA _ (getD_mem hj)
        rw [abs_of_pos (by linarith), abs_of_pos (by linarith)]
        unfold costA costB at *
        nlinarith [mul_pos (sub_pos.2 hc) (sub_pos.2 hvij)]
      · left
        apply argminQ_of_pairwise_le
        apply pairwise_of_getD
        intro i j hij hj
        rw [hlen] at hj
        have hi := lt_trans hij hj
        rw [hgap i hi, hgap j hj]
        have hvij : domain.getD i 0 < domain.getD j 0 := pairwise_getD hmono hij hj
        have h1 := hBA _ (getD_mem hi)
        have h2 := hBA _ (getD_mem hj)
        rw [abs_of_pos (by linarith), abs_of_pos (by linarith)]
        unfold costA costB at *
        nlinarith [mul_nonneg (sub_nonneg.2 hc) (sub_nonneg.2 hvij.le)]
  refine ⟨hend, hminle 0 hpos, hminle (domain.length - 1) (by omega), ?_⟩
  have hmem : break_even_requests domain rateA rateB offsetB ∈ domain :=
    getD_mem hidx
  rcases hsign with hAB | hBA
  · exact ne_of_lt (hAB _ hmem)
  · exact ne_of_gt (hBA _ hmem)

/-- C2 witness at domain `[0, 1]`, `rateA = 0`, `rateB = 0`, `offsetB = 1`
(curves never cross: `costA = 0 < 1 = costB` at every sample). -/
theorem C2_no_crossing_endpoint_witness :
    (break_even_idx [0, 1] 0 0 1 = 0 ∨
     break_even_idx [0, 1] 0 0 1 = ([0, 1] : List ℚ).length - 1) ∧
    costA 0 (break_even_requests [0, 1] 0 0 1) ≠
      costB 0 1 (break_even_requests [0, 1] 0 0 1) :=
  ⟨(C2_no_crossing_endpoint [0, 1] 0 0 1 (by simp)
      (by norm_num [List.pairwise_cons])
      (Or.inl (by intro v hv; norm_num [costA, costB]))).1,
   (C2_no_crossing_endpoint [0, 1] 0 0 1 (by simp)
      (by norm_num [List.pairwise_cons])
      (Or.inl (by intro v hv; norm_num [costA, costB]))).2.2.2⟩

/-- C5: with `rateA > rateB ≥ 0` and `offsetB > 0`, at every domain sample
strictly beyond the returned break-even sample the affine (self-hosted) cost
is not greater than the linear (cloud) cost. -/
theorem C5_affine_cheaper_beyond (domain : List ℚ) (rateA rateB offsetB : ℚ)
    (hne : domain ≠ []) (hmono : domain.Pairwise (· < ·))
    (hpos : ∀ v ∈ domain, 0 ≤ v)
    (hrate : rateB < rateA) (hrb : 0 ≤ rateB) (hob : 0 < offsetB) :
    ∀ j, break_even_idx domain rateA rateB offsetB < j → j < domain.length →
      costB rateB offsetB (domain.getD j 0) ≤ costA rateA (domain.getD j 0) := by
  intro j hij hj
  by_contra hcon
  push_neg at hcon
  have hLne := absDiff_ne_nil rateA rateB offsetB hne
  have hidx := break_even_idx_lt rateA rateB offsetB hne
  have hgap := absDiff_getD domain rateA rateB offsetB
  have hvij : domain.getD (break_even_idx domain rateA rateB offsetB) 0 <
      domain.getD j 0 := pairwise_getD hmono hij hj
  have hdiff : costA rateA (domain.getD (break_even_idx domain rateA rateB offsetB) 0) -
      costB rateB offsetB (domain.getD (break_even_idx domain rateA rateB offsetB) 0) <
      costA rateA (domain.getD j 0) - costB rateB offsetB (domain.getD j 0) := by
    unfold costA costB
    nlinarith [mul_pos (sub_pos.2 hrate) (sub_pos.2 hvij)]
  have hjneg : costA rateA (domain.getD j 0) - costB rateB offsetB (domain.getD j 0) < 0 := by
    linarith
  have hmin : (absDiff domain rateA rateB offsetB).getD
      (break_even_idx domain rateA rateB offsetB) 0 ≤
      (absDiff domain rateA rateB offsetB).getD j 0 := by
    rw [show break_even_idx domain rateA rateB offsetB =
        argminQ (absDiff domain rateA rateB offsetB) from rfl, getD_argminQ hLne]
    exact listMin_le _ j (by rwa [length_absDiff])
  rw [hgap _ hidx, hgap _ hj, abs_of_neg (by linarith), abs_of_neg hjneg] at hmin
  linarith

/-- C5 witness at domain `[0, 1]`, `rateA = 1`, `rateB = 0`,
`offsetB = 1/2`, sample `j = 1`. -/
theorem C5_affine_cheaper_beyond_witness :
    costB 0 (1/2) (([0, 1] : List ℚ).getD 1 0) ≤
      costA 1 (([0, 1] : List ℚ).getD 1 0) :=
  C5_affine_cheaper_beyond [0, 1] 1 0 (1/2) (by simp)
    (by norm_num [List.pairwise_cons]) (by norm_num)
    (by norm_num) (by norm_num) (by norm_num) 1
    (by norm_num [break_even_idx, absDiff, cloud_cost, self_hosted_cost,
      costA, costB, argminQ, listMin])
    (by norm_num)

theorem mid_lt_of_abs_lt {x y o : ℚ} (hxy : x < y) (h : |y - o| < |x - o|) :
    x + y < 2 * o := by
  rcases abs_cases (y - o) with ⟨e1, s1⟩ | ⟨e1, s1⟩ <;>
    rcases abs_cases (x - o) with ⟨e2, s2⟩ | ⟨e2, s2⟩ <;>
      rw [e1, e2] at h <;> linarith

theorem mid_le_of_abs_le {x y o : ℚ} (hxy : x < y) (h : |x - o| ≤ |y - o|) :
    2 * o ≤ x + y := by
  rcases abs_cases (x - o) with ⟨e1, s1⟩ | ⟨e1, s1⟩ <;>
    rcases abs_cases (y - o) with ⟨e2, s2⟩ | ⟨e2, s2⟩ <;>
      rw [e1, e2] at h <;> linarith

/-- C8 counterexample: on the strictly increasing non-negative domain
`[0, 1, 2]` with shared rates `rateA = 1 > rateB = 0` and offsets
`offsetB = 1 < offsetB' = 6/5`, the two break-even volumes are equal while
the returned volume is an interior sample of the domain, not a clipped
domain bound — refuting "equality only when clipped at a domain bound". -/
theorem C8_counterexample :
    (0 : ℚ) < 1 ∧ (1 : ℚ) < 6/5 ∧
    break_even_requests [0, 1, 2] 1 0 (6/5) = break_even_requests [0, 1, 2] 1 0 1 ∧
    break_even_requests [0, 1, 2] 1 0 1 ≠ ([0, 1, 2] : List ℚ).getD 0 0 ∧
    break_even_requests [0, 1, 2] 1 0 1 ≠
      ([0, 1, 2] : List ℚ).getD (([0, 1, 2] : List ℚ).length - 1) 0 := by
  norm_num [break_even_requests, break_even_idx, absDiff, cloud_cost,
    self_hosted_cost, costA, costB, argminQ, listMin, abs_of_nonneg]

/-- C8 (amended): for two configurations sharing the same strictly
increasing non-empty domain and the same rates with `rateA > rateB`, and
offsets `offsetB < offsetB'`, the break-even domain value for `offsetB'` is
greater than or equal to the one for `offsetB` (equality can also occur at
interior samples, a consequence of the sampled search). -/
theorem C8_offset_monotone (domain : List ℚ) (rateA rateB oB oB' : ℚ)
    (hne : domain ≠ []) (hmono : domain.Pairwise (· < ·))
    (hrate : rateB < rateA) (hoo : oB < oB') :
    break_even_requests domain rateA rateB oB ≤
      break_even_requests domain rateA rateB oB' := by
  have hidx := break_even_idx_lt rateA rateB oB hne
  have hidx' := break_even_idx_lt rateA rateB oB' hne
  have key : break_even_idx domain rateA rateB oB ≤
      break_even_idx domain rateA rateB oB' := by
    by_contra hlt
    push_neg at hlt
    have hv : domain.getD (break_even_idx domain rateA rateB oB') 0 <
        domain.getD (break_even_idx domain rateA rateB oB) 0 :=
      pairwise_getD hmono hlt hidx
    have h1 : (absDiff domain rateA rateB oB).getD
        (break_even_idx domain rateA rateB oB) 0 <
        (absDiff domain rateA rateB oB).getD
          (break_even_idx domain rateA rateB oB') 0 := by
      rw [show break_even_idx domain rateA rateB oB =
          argminQ (absDiff domain rateA rateB oB) from rfl,
        getD_argminQ (absDiff_ne_nil rateA rateB oB hne)]
      exact argminQ_first _ _ hlt
    have h2 : (absDiff domain rateA rateB oB').getD
        (break_even_idx domain rateA rateB oB') 0 ≤
        (absDiff domain rateA rateB oB').getD
          (break_even_idx domain rateA rateB oB) 0 := by
      rw [show break_even_idx domain rateA rateB oB' =
          argminQ (absDiff domain rateA rateB oB') from rfl,
        getD_argminQ (absDiff_ne_nil rateA rateB oB' hne)]
      exact listMin_le _ _ (by rwa [length_absDiff])
    rw [absDiff_getD domain rateA rateB oB _ hidx,
      absDiff_getD domain rateA rateB oB _ (lt_trans hlt hidx)] at h1
    rw [absDiff_getD domain rateA rateB oB' _ (lt_trans hlt hidx),
      absDiff_getD domain rateA rateB oB' _ hidx] at h2
    unfold costA costB at h1 h2
    set u := domain.getD (break_even_idx domain rateA rateB oB') 0
    set w := domain.getD (break_even_idx domain rateA rateB oB) 0
    have hxy : (rateA - rateB) * u < (rateA - rateB) * w :=
      (mul_lt_mul_left (sub_pos.2 hrate)).2 hv
    have e1 : rateA * w - (oB + rateB * w) = (rateA - rateB) * w - oB := by ring
    have e2 : rateA * u - (oB + rateB * u) = (rateA - rateB) * u - oB := by ring
    have e3 : rateA * u - (oB' + rateB * u) = (rateA - rateB) * u - oB' := by ring
    have e4 : rateA * w - (oB' + rateB * w) = (rateA - rateB) * w - oB' := by ring
    rw [e1, e2] at h1
    rw [e3, e4] at h2
    have hm1 := mid_lt_of_abs_lt hxy h1
    have hm2 := mid_le_of_abs_le hxy h2
    linarith
  rcases eq_or_lt_of_le key with heq | hlt
  · unfold break_even_requests
    rw [heq]
  · exact le_of_lt (pairwise_getD hmono hlt hidx')

/-- C8 witness at domain `[0, 1]`, `rateA = 1`, `rateB = 0`,
offsets `1/4 < 1/2`. -/
theorem C8_offset_monotone_witness :
    break_even_requests [0, 1] 1 0 (1/4) ≤ break_even_requests [0, 1] 1 0 (1/2) :=
  C8_offset_monotone [0, 1] 1 0 (1/4) (1/2) (by simp)
    (by norm_num [List.pairwise_cons]) (by norm_num) (by norm_num)

/-- C6: on `[0, 10]` sampled at the integers with `rateA = 1`,
`rateB = 1/10`, `offsetB = 5`, the estimator returns volume `6`, the sample
nearest the exact crossing `offsetB / (rateA - rateB) = 50/9 ≈ 5.56`; and for
every resolution `n ≥ 2` of `[0, 10]` the minimum absolute difference at the
returned sample is at most `8 / (n - 1)`, so it decreases toward zero as the
sampling resolution increases. -/
theorem C6_integer_grid_and_resolution :
    break_even_requests (linspace 0 10 11) 1 (1/10) 5 = 6 ∧
    (∀ n : ℕ, 2 ≤ n →
      (absDiff (linspace 0 10 n) 1 (1/10) 5).getD
        (break_even_idx (linspace 0 10 n) 1 (1/10) 5) 0 ≤ 8 / ((n : ℚ) - 1)) := by
  constructor
  · have hlist : absDiff (linspace 0 10 11) 1 (1/10) 5 =
        [5, 41/10, 16/5, 23/10, 7/5, 1/2, 2/5, 13/10, 11/5, 31/10, 4] := by
      rw [absDiff_eq_map]
      norm_num [linspace, List.range_succ, costA, costB, abs_of_nonneg,
        abs_of_nonpos]
    have hidx : break_even_idx (linspace 0 10 11) 1 (1/10) 5 = 6 := by
      unfold break_even_idx
      rw [hlist]
      norm_num [argminQ, listMin]
    unfold break_even_requests
    rw [hidx, linspace_getD 0 10 (show 6 < 11 by norm_num)]
    norm_num
  · intro n hn
    have hne : linspace 0 10 n ≠ [] := by
      intro h
      have := linspace_length 0 10 n
      rw [h] at this
      simp at this
      omega
    have hLne := absDiff_ne_nil 1 (1/10) 5 hne
    have hllen : (linspace 0 10 n).length = n := linspace_length 0 10 n
    have hden : (0:ℚ) < (n:ℚ) - 1 := by
      have : (2:ℚ) ≤ (n:ℚ) := by exact_mod_cast hn
      linarith
    -- the grid index just below the exact crossing 50/9
    have hi0lt : 5 * (n - 1) / 9 < n := by
      have h1 : 5 * (n - 1) / 9 ≤ 9 * (n - 1) / 9 :=
        Nat.div_le_div_right (by omega)
      have h2 : 9 * (n - 1) / 9 = n - 1 := by omega
      omega
    have hmin : (absDiff (linspace 0 10 n) 1 (1/10) 5).getD
        (break_even_idx (linspace 0 10 n) 1 (1/10) 5) 0 ≤
        (absDiff (linspace 0 10 n) 1 (1/10) 5).getD (5 * (n - 1) / 9) 0 := by
      rw [show break_even_idx (linspace 0 10 n) 1 (1/10) 5 =
          argminQ (absDiff (linspace 0 10 n) 1 (1/10) 5) from rfl,
        getD_argminQ hLne]
      exact listMin_le _ _ (by rw [length_absDiff, hllen]; exact hi0lt)
    refine le_trans hmin ?_
    rw [absDiff_getD _ _ _ _ _ (by rwa [hllen]),
      linspace_getD 0 10 hi0lt]
    unfold costA costB
    -- division facts for i0 = 5(n-1)/9
    have hdm : 9 * (5 * (n - 1) / 9) + 5 * (n - 1) % 9 = 5 * (n - 1) :=
      Nat.div_add_mod _ 9
    have hr : 5 * (n - 1) % 9 ≤ 8 := by
      have := Nat.mod_lt (5 * (n - 1)) (show 0 < 9 by norm_num)
      omega
    have hcast : ((n - 1 : ℕ) : ℚ) = (n : ℚ) - 1 := by
      have h1 : 1 ≤ n := by omega
      push_cast [Nat.cast_sub h1]
      ring
    have hdmq : (9:ℚ) * ((5 * (n - 1) / 9 : ℕ) : ℚ) + ((5 * (n - 1) % 9 : ℕ) : ℚ) =
        5 * ((n:ℚ) - 1) := by
      rw [← hcast]
      exact_mod_cast hdm
    have hrq : ((5 * (n - 1) % 9 : ℕ) : ℚ) ≤ 8 := by exact_mod_cast hr
    have hrq0 : (0:ℚ) ≤ ((5 * (n - 1) % 9 : ℕ) : ℚ) := by positivity
    have hform : 1 * (0 + (10 - 0) * ((5 * (n - 1) / 9 : ℕ) : ℚ) / ((n:ℚ) - 1)) -
        (5 + 1/10 * (0 + (10 - 0) * ((5 * (n - 1) / 9 : ℕ) : ℚ) / ((n:ℚ) - 1))) =
        (9 * ((5 * (n - 1) / 9 : ℕ) : ℚ) - 5 * ((n:ℚ) - 1)) / ((n:ℚ) - 1) := by
      field_simp
      ring
    rw [hform, abs_div, abs_of_pos hden]
    have hnum : |9 * ((5 * (n - 1) / 9 : ℕ) : ℚ) - 5 * ((n:ℚ) - 1)| ≤ 8 := by
      rw [abs_le]
      constructor <;> linarith
    exact (div_le_div_right hden).2 hnum

/-- C6 witness: the resolution bound applied at `n = 11`. -/
theorem C6_integer_grid_and_resolution_witness :
    (absDiff (linspace 0 10 11) 1 (1/10) 5).getD
      (break_even_idx (linspace 0 10 11) 1 (1/10) 5) 0 ≤ 8 / ((11 : ℚ) - 1) :=
  C6_integer_grid_and_resolution.2 11 (by norm_num)

theorem mem_linspace_bounds {a b : ℚ} (hab : a ≤ b) {n : ℕ} {v : ℚ}
    (h : v ∈ linspace a b n) : a ≤ v ∧ v ≤ b := by
  obtain ⟨i, hfi⟩ := List.mem_iff_get.1 h
  have hin : (i : ℕ) < n := lt_of_lt_of_le i.isLt (linspace_length a b n).le
  have hgd : (linspace a b n).getD (i : ℕ) 0 = v := by
    rw [List.getD_eq_getElem _ _ i.isLt, ← List.get_eq_getElem]
    exact hfi
  exact ⟨hgd ▸ le_linspace_getD a b hab hin, hgd ▸ linspace_getD_le a b hab hin⟩

/-- C3: under the script's fixed configuration (`rateA = 0.002`,
`rateB = 0.0002`, `offsetB = 10000`, `requests = linspace 0 100000 1000`),
the cloud cost is strictly below the self-hosted cost at every sample — the
curves never cross in the sampled domain — the argmin of the absolute
difference is the last sample (index 999, volume 100000), and the minimum
absolute gap there is `10000 - 0.0018 * 100000 = 9820` dollars. -/
theorem C3_script_no_crossing :
    (∀ i : ℕ, i < 1000 →
      (cloud_cost requests script_rateA).getD i 0 <
      (self_hosted_cost requests script_rateB initial_investment).getD i 0) ∧
    break_even_idx requests script_rateA script_rateB initial_investment = 999 ∧
    break_even_requests requests script_rateA script_rateB initial_investment =
      100000 ∧
    (absDiff requests script_rateA script_rateB initial_investment).getD 999 0 =
      9820 := by
  have hllen : requests.length = 1000 := linspace_length 0 100000 1000
  have hlt : ∀ i : ℕ, i < 1000 → i < requests.length := by
    intro i h; rwa [hllen]
  have hne : requests ≠ [] := by
    intro h
    rw [h] at hllen
    simp at hllen
  have hub : ∀ i : ℕ, i < 1000 → requests.getD i 0 ≤ 100000 := by
    intro i h
    exact linspace_getD_le 0 100000 (by norm_num) h
  have hcloud : ∀ i : ℕ, i < 1000 →
      (cloud_cost requests script_rateA).getD i 0 =
        script_rateA * requests.getD i 0 := by
    intro i h
    unfold cloud_cost
    rw [getD_map_of_lt _ _ _ (hlt i h)]
    rfl
  have hself : ∀ i : ℕ, i < 1000 →
      (self_hosted_cost requests script_rateB initial_investment).getD i 0 =
        initial_investment + script_rateB * requests.getD i 0 := by
    intro i h
    unfold self_hosted_cost
    rw [getD_map_of_lt _ _ _ (hlt i h)]
    rfl
  have hbelow : ∀ i : ℕ, i < 1000 →
      (cloud_cost requests script_rateA).getD i 0 <
      (self_hosted_cost requests script_rateB initial_investment).getD i 0 := by
    intro i h
    rw [hcloud i h, hself i h]
    have hbound := hub i h
    set v := requests.getD i 0 with hv
    unfold script_rateA script_rateB initial_investment
    norm_num
    linarith
  have hidx : break_even_idx requests script_rateA script_rateB
      initial_investment = 999 := by
    have hdec : (absDiff requests script_rateA script_rateB
        initial_investment).Pairwise (fun a b => b < a) := by
      apply pairwise_of_getD
      intro i j hij hj
      rw [length_absDiff, hllen] at hj
      have hi := lt_trans hij hj
      rw [absDiff_getD _ _ _ _ _ (hlt i hi), absDiff_getD _ _ _ _ _ (hlt j hj)]
      have hvij : requests.getD i 0 < requests.getD j 0 :=
        pairwise_getD (linspace_pairwise_lt 0 100000 (by norm_num) 1000) hij
          (hlt j hj)
      have h1 := hub i hi
      have h2 := hub j hj
      set vi := requests.getD i 0 with hvi
      set vj := requests.getD j 0 with hvj
      unfold costA costB script_rateA script_rateB initial_investment
      rw [abs_of_neg (by norm_num; linarith), abs_of_neg (by norm_num; linarith)]
      norm_num
      linarith
    have := argminQ_of_pairwise_gt (absDiff_ne_nil _ _ _ hne) hdec
    rw [break_even_idx, this, length_absDiff, hllen]
  have hval : requests.getD 999 0 = 100000 := by
    rw [requests, linspace_getD 0 100000 (show 999 < 1000 by norm_num)]
    norm_num
  refine ⟨hbelow, hidx, ?_, ?_⟩
  · rw [break_even_requests, hidx, hval]
  · rw [absDiff_getD _ _ _ _ _ (hlt 999 (by norm_num)), hval]
    have hnum : costA script_rateA (100000:ℚ) -
        costB script_rateB initial_investment 100000 = -9820 := by
      unfold costA costB script_rateA script_rateB initial_investment
      norm_num
    rw [hnum, abs_neg]
    exact abs_of_nonneg (by norm_num)

/-- C3 witness: the per-sample strict comparison applied at sample `0`. -/
theorem C3_script_no_crossing_witness :
    (cloud_cost requests script_rateA).getD 0 0 <
      (self_hosted_cost requests script_rateB initial_investment).getD 0 0 :=
  C3_script_no_crossing.1 0 (by norm_num)

end LLMChart
